import Mathlib

/-!
Verification development for the stringify-pro string-manipulation library
(src/src/StringUtils.ts, src/src/types.ts, src/unnamed/part_000 = errors.ts).

Shallow embedding conventions:
* JavaScript strings are modelled as Lean `String` / `List Char`; the
  platform's `toUpperCase`/`toLowerCase` are modelled by the ASCII maps
  `Char.toUpper` / `Char.toLower` applied characterwise.
* Fallible operations return `Except SUError α`, mirroring the library's
  three-class error hierarchy (errors.ts: StringUtilError, ValidationError,
  CryptoError).
* The platform crypto primitives (`crypto.pbkdf2Sync`, `crypto.randomBytes`)
  are external collaborators, not code of this repository; they are
  parameters of the embedding (`Option`-valued to model their failure being
  caught and re-raised as CryptoError).
* `validateString` (StringUtils.ts lines 5-13) only rejects null/undefined
  and non-string arguments; since every modelled input is a Lean `String`,
  it always succeeds and is omitted from the embedding.
-/

namespace StringUtils

/-- Error classes of errors.ts: StringUtilError (base), ValidationError,
CryptoError. -/
inductive ErrorKind where
  | stringUtil
  | validation
  | crypto
deriving DecidableEq, Repr

/-- An error value: its class and its message, as constructed by
`new XError(message)` in the source. -/
structure SUError where
  kind : ErrorKind
  message : String
deriving DecidableEq, Repr

/-- JavaScript `\s` (and `String.prototype.trim`) whitespace, restricted to
the ASCII whitespace characters. -/
def jsIsSpace (c : Char) : Bool :=
  c == ' ' || c == '\t' || c == '\n' || c == '\r' || c == '\x0b' || c == '\x0c'

/-- StringUtils.capitalize (lines 27-31): empty input returned unchanged;
otherwise `str.charAt(0).toUpperCase() + str.slice(1)`, with the platform
`toUpperCase` on one character modelled by `Char.toUpper`. -/
def capitalize (s : String) : String :=
  match s.data with
  | [] => s
  | c :: cs => String.mk (c.toUpper :: cs)

/-- StringUtils.isPalindrome (lines 82-87): strip every character that is
not ASCII alphanumeric (`[^a-zA-Z0-9]`), lower-case unless `caseSensitive`,
compare with the reversal. -/
def isPalindrome (s : String) (caseSensitive : Bool) : Bool :=
  let cleanStr := s.data.filter (fun c => c.isAlphanum)
  let processedStr := if caseSensitive then cleanStr else cleanStr.map Char.toLower
  processedStr == processedStr.reverse

/-- Reversal of the character sequence of a string. -/
def strReverse (s : String) : String :=
  String.mk s.data.reverse

/-- JavaScript `str.split(sep)` for a one-character separator, at the
character-list level: splits at every occurrence, keeping empty segments;
the empty string yields one empty segment. -/
def splitOnCharL (sep : Char) : List Char → List (List Char)
  | [] => [[]]
  | c :: cs =>
    match splitOnCharL sep cs with
    | [] => [[]]
    | p :: ps => if c == sep then [] :: p :: ps else (c :: p) :: ps

/-- The platform KDF `crypto.pbkdf2Sync(password, salt, iterations, 64,
"sha512").toString("hex")` (an external collaborator, §6 of the spec):
password, salt, iteration count to hex digest, `none` when the primitive
fails. -/
def Pbkdf2 : Type := String → String → Nat → Option String

/-- Hex encoding of a byte list, as `Buffer.toString("hex")`: two lowercase
hex digits per byte. -/
def hexDigit (n : Nat) : Char :=
  "0123456789abcdef".data.getD n '0'

def toHex (bytes : List Nat) : String :=
  String.mk (bytes.foldr (fun b acc => hexDigit (b / 16) :: hexDigit (b % 16) :: acc) [])

/-- StringUtils.hashWithSalt (lines 158-167): hex-encode the 16 random salt
bytes (supplied here as the `saltBytes` parameter in place of
`crypto.randomBytes(16)`), derive with PBKDF2 at `saltRounds` iterations,
return `salt:hash`; a failing primitive surfaces as CryptoError. -/
def hashWithSalt (pbkdf2 : Pbkdf2) (saltBytes : List Nat) (str : String)
    (saltRounds : Nat) : Except SUError String :=
  let salt := toHex saltBytes
  match pbkdf2 str salt saltRounds with
  | none => .error ⟨.crypto, "Failed to hash string with salt"⟩
  | some hash => .ok (salt ++ ":" ++ hash)

/-- StringUtils.verifyHash (lines 169-180): `const [salt, originalHash] =
hashedStr.split(':')` (so `salt` is the first segment and `originalHash` the
second segment or `undefined`), re-derive with a fixed 10 iterations, and
compare; `hash === originalHash` is `false` when `originalHash` is
`undefined`. A failing primitive surfaces as CryptoError. -/
def verifyHash (pbkdf2 : Pbkdf2) (str hashedStr : String) : Except SUError Bool :=
  let parts := splitOnCharL ':' hashedStr.data
  let salt := String.mk (parts.headD [])
  let originalHash : Option String := (parts.drop 1).head?.map String.mk
  match pbkdf2 str salt 10 with
  | none => .error ⟨.crypto, "Failed to verify hash"⟩
  | some hash =>
    .ok (match originalHash with
         | some oh => hash == oh
         | none => false)

/-- A concrete, collision-free instantiation of the external KDF parameter,
used to instantiate theorems at concrete inputs (its output never contains
a colon, like the hex output of the real primitive). -/
def pbkdf2Inst : Pbkdf2 :=
  fun password salt iterations =>
    some (password ++ "/" ++ salt ++ "/" ++ Nat.repr iterations)

/-- StringUtils.trimExtraSpaces (lines 67-70), first stage: the global
replacement `str.replace(/\s+/g, ' ')`, i.e. every maximal run of
whitespace becomes one space.  The `inRun` flag records whether the
previous character belonged to the current whitespace run. -/
def collapseWs : List Char → Bool → List Char
  | [], _ => []
  | c :: cs, inRun =>
    if jsIsSpace c then
      if inRun then collapseWs cs true else ' ' :: collapseWs cs true
    else c :: collapseWs cs false

/-- `String.prototype.trim`, trailing part: remove trailing whitespace. -/
def dropTrailWs : List Char → List Char
  | [] => []
  | c :: cs =>
    match dropTrailWs cs with
    | [] => if jsIsSpace c then [] else [c]
    | r => c :: r

/-- StringUtils.trimExtraSpaces (lines 67-70):
`str.replace(/\s+/g, ' ').trim()`. -/
def trimExtraSpaces (s : String) : String :=
  String.mk (dropTrailWs ((collapseWs s.data false).dropWhile jsIsSpace))

/-- No two adjacent characters are both whitespace. -/
def noAdjSpace : List Char → Bool
  | c1 :: c2 :: cs => (!(jsIsSpace c1 && jsIsSpace c2)) && noAdjSpace (c2 :: cs)
  | _ => true

/-- Every whitespace character in the list is the plain space. -/
def normedSp (l : List Char) : Bool :=
  l.all (fun c => !jsIsSpace c || c == ' ')

/-- The list does not begin with a whitespace character. -/
def headNotSpace (l : List Char) : Bool :=
  match l.head? with
  | none => true
  | some c => !jsIsSpace c

/-- The list does not end with a whitespace character. -/
def lastNotSpace (l : List Char) : Bool :=
  match l.getLast? with
  | none => true
  | some c => !jsIsSpace c

/-- StringUtils.levenshteinDistance (lines 98-117), inner loop: given the
previous matrix row (starting at its `j-1` entry, so `diag` is
`matrix[i-1][j-1]` and the head of the remaining row is `matrix[i-1][j]`),
the character `x = a[i-1]`, and the cell to the left (`matrix[i][j-1]`),
produce the entries `matrix[i][j..]` via
`min(matrix[i-1][j] + 1, matrix[i][j-1] + 1, matrix[i-1][j-1] + cost)`. -/
def levCells (x : Char) : List Char → List Nat → Nat → List Nat
  | y :: ys, diag :: rest, left =>
    let up := rest.headD 0
    let cell := min (up + 1) (min (left + 1) (diag + if x = y then 0 else 1))
    cell :: levCells x ys rest cell
  | _, _, _ => []

/-- StringUtils.levenshteinDistance, outer loop: build row `i` from row
`i-1` for each remaining character of `a`; `matrix[i][0] = i`. -/
def levRows (bs : List Char) : List Char → List Nat → Nat → List Nat
  | [], prev, _ => prev
  | x :: xs, prev, i => levRows bs xs (i :: levCells x bs prev i) (i + 1)

/-- StringUtils.levenshteinDistance (lines 98-117): dynamic-programming
table with row 0 and column 0 initialised to the index; the result is
`matrix[a.length][b.length]`, the last entry of the last row. -/
def levenshteinDistance (a b : String) : Nat :=
  (levRows b.data a.data (List.range (b.data.length + 1)) 1).getLastD 0

/-- `Number(x.toFixed(2))`: the value rounded to two decimal places
(idealised to exact rational arithmetic; `toFixed` rounds halves up). -/
def toFixed2 (x : ℚ) : ℚ :=
  (round (x * 100) : ℤ) / 100

/-- StringUtils.similarity (lines 89-96):
`Number((1 - distance / maxLength).toFixed(2)) * 100`.  When both strings
are empty `maxLength` is 0 and the JavaScript division yields NaN, which
propagates to a NaN result; this is modelled as `none`. -/
def similarity (str1 str2 : String) : Option ℚ :=
  let distance := levenshteinDistance str1 str2
  let maxLength := max str1.length str2.length
  if maxLength = 0 then none
  else some (toFixed2 (1 - (distance : ℚ) / (maxLength : ℚ)) * 100)

/-- Textbook Levenshtein distance by recursion on the heads; used as the
specification the DP table is proved against. -/
def levFun : List Char → List Char → Nat
  | [], v => v.length
  | x :: u, [] => (x :: u).length
  | x :: u, y :: v =>
    min (levFun u (y :: v) + 1)
      (min (levFun (x :: u) v + 1) (levFun u v + if x = y then 0 else 1))

/-- The tail of DP row `i` from column `j+1` on, expressed through
`levFun`: `ru` is the reversed prefix `a[0..i)` and `rv` the reversed
prefix `b[0..j)`; the list holds `levFun ru (rev b[0..j']) ` for
`j' = j+1 .. |b|`. -/
def levSpecCells (ru rv : List Char) : List Char → List Nat
  | [] => []
  | y :: ys => levFun ru (y :: rv) :: levSpecCells ru (y :: rv) ys

/-- types.ts RandomStringOptions, with the default values applied by the
destructuring in StringUtils.randomString (lines 122-127). -/
structure RandomStringOptions where
  numbers : Bool := true
  symbols : Bool := false
  uppercase : Bool := true
  lowercase : Bool := true

/-- StringUtils.randomString (lines 129-133): the alphabet assembled by
concatenating the enabled classes in the order uppercase, lowercase,
numbers, symbols. -/
def rsAlphabet (o : RandomStringOptions) : String :=
  (if o.uppercase then "ABCDEFGHIJKLMNOPQRSTUVWXYZ" else "") ++
  (if o.lowercase then "abcdefghijklmnopqrstuvwxyz" else "") ++
  (if o.numbers then "0123456789" else "") ++
  (if o.symbols then "!@#$%^&*()_+-=[]\x7b\x7d|;:,.<>?" else "")

/-- StringUtils.randomString (lines 119-147): length must be ≥ 1
(ValidationError "Length must be positive"), the alphabet must be non-empty
(ValidationError "At least one character type must be selected"); then each
of the `length` platform random bytes (the external `crypto.randomBytes`,
supplied as the `randomBytes` parameter) selects
`chars[byte % chars.length]`; a failing random source surfaces as
CryptoError. -/
def randomString (randomBytes : Nat → Option (List Nat)) (length : Int)
    (options : RandomStringOptions) : Except SUError String :=
  if length < 1 then .error ⟨.validation, "Length must be positive"⟩
  else
    let chars := rsAlphabet options
    if chars.length = 0 then
      .error ⟨.validation, "At least one character type must be selected"⟩
    else
      match randomBytes length.toNat with
      | none => .error ⟨.crypto, "Failed to generate random string"⟩
      | some bytes =>
        .ok (String.mk (bytes.map (fun byte => chars.data.getD (byte % chars.length) 'A')))

/-- The standard base64 alphabet. -/
def b64Alphabet : List Char :=
  "ABCDEFGHIJKLMNOPQRSTUVWXYZabcdefghijklmnopqrstuvwxyz0123456789+/".data

def b64Char (n : Nat) : Char :=
  b64Alphabet.getD n 'A'

def b64Val (c : Char) : Nat :=
  b64Alphabet.indexOf c

/-- Standard base64 of a byte sequence, as produced by
`Buffer.from(str).toString('base64')`: 3-byte groups become 4 sextets, a
final 1- or 2-byte group is padded with `=`. -/
def b64EncodeBytes : List Nat → List Char
  | [] => []
  | [b1] => [b64Char (b1 / 4), b64Char (b1 % 4 * 16), '=', '=']
  | [b1, b2] => [b64Char (b1 / 4), b64Char (b1 % 4 * 16 + b2 / 16), b64Char (b2 % 16 * 4), '=']
  | b1 :: b2 :: b3 :: rest =>
    b64Char (b1 / 4) :: b64Char (b1 % 4 * 16 + b2 / 16) ::
    b64Char (b2 % 16 * 4 + b3 / 64) :: b64Char (b3 % 64) :: b64EncodeBytes rest

/-- `Buffer.from(str, 'base64')`: 4-character groups yield 3 bytes, `=`
ends the data, and a trailing group of 2 or 3 characters yields 1 or 2
bytes (Node accepts unpadded input). -/
def b64DecodeChars : List Char → List Nat
  | c1 :: c2 :: c3 :: c4 :: rest =>
    if c3 == '=' then [b64Val c1 * 4 + b64Val c2 / 16]
    else if c4 == '=' then
      [b64Val c1 * 4 + b64Val c2 / 16, b64Val c2 % 16 * 16 + b64Val c3 / 4]
    else
      (b64Val c1 * 4 + b64Val c2 / 16) :: (b64Val c2 % 16 * 16 + b64Val c3 / 4) ::
      (b64Val c3 % 4 * 64 + b64Val c4) :: b64DecodeChars rest
  | [c1, c2, c3] => [b64Val c1 * 4 + b64Val c2 / 16, b64Val c2 % 16 * 16 + b64Val c3 / 4]
  | [c1, c2] => [b64Val c1 * 4 + b64Val c2 / 16]
  | _ => []

def isB64Char (c : Char) : Bool :=
  c.isAlphanum || c == '+' || c == '/'

/-- The check `/^[A-Za-z0-9+/]*={0,2}$/.test(str)` of
StringUtils.base64Decode (line 195): since `=` is not an alphabet
character, a string matches iff after its maximal alphabet-character prefix
only 0, 1 or 2 `=` remain. -/
def b64FormatOk (cs : List Char) : Bool :=
  let rest := cs.drop (cs.takeWhile isB64Char).length
  rest.all (fun c => c == '=') && rest.length ≤ 2

/-- StringUtils.base64Encode (lines 182-189): base64 of the UTF-8 bytes of
the input.  The UTF-8 layer is the platform's (`Buffer.from`), so the
embedding works at the byte level: the argument is the byte sequence of the
text. -/
def base64Encode (bytes : List Nat) : String :=
  String.mk (b64EncodeBytes bytes)

/-- StringUtils.base64Decode (lines 191-202): reject inputs failing the
format check with StringUtilError "Invalid base64 string" (the inner throw
and the catch-all rethrow carry the same error), otherwise decode.  The
result bytes stand for the string produced by the platform's
`Buffer.toString()` (which never throws). -/
def base64Decode (str : String) : Except SUError (List Nat) :=
  if b64FormatOk str.data then .ok (b64DecodeChars str.data)
  else .error ⟨.stringUtil, "Invalid base64 string"⟩

/-- JavaScript `\w`: `[A-Za-z0-9_]`. -/
def isWordChar (c : Char) : Bool :=
  c.isAlphanum || c == '_'

/-- The fixed stop-word list of StringUtils.slugify (line 220). -/
def slugStopWords : List (List Char) :=
  ["a", "an", "the", "and", "or", "but"].map String.data

def joinWithChar (sep : Char) (ws : List (List Char)) : List Char :=
  (ws.intersperse [sep]).flatten

/-- `result.replace(/\s+/g, separator)` (StringUtils.ts line 228): every
maximal whitespace run becomes one copy of the separator. -/
def wsRunsTo (sep : Char) : List Char → Bool → List Char
  | [], _ => []
  | c :: cs, inRun =>
    if jsIsSpace c then
      if inRun then wsRunsTo sep cs true else sep :: wsRunsTo sep cs true
    else c :: wsRunsTo sep cs false

/-- `result.replace(new RegExp(sep + "+", 'g'), sep)` for a one-character
separator that is regex-literal: maximal separator runs collapse to one. -/
def collapseRuns (sep : Char) : List Char → Bool → List Char
  | [], _ => []
  | c :: cs, inRun =>
    if c == sep then
      if inRun then collapseRuns sep cs true else sep :: collapseRuns sep cs true
    else c :: collapseRuns sep cs false

/-- `result.replace(new RegExp("^" + sep + "|" + sep + "$", 'g'), '')` for
a one-character regex-literal separator: remove one leading and one
trailing separator (the trailing alternative only matches a position not
consumed by the leading one). -/
def stripEnds (sep : Char) (l : List Char) : List Char :=
  let l1 := match l with
    | [] => []
    | c :: cs => if c == sep then cs else c :: cs
  match l1.getLast? with
  | some d => if d == sep then l1.dropLast else l1
  | none => l1

/-- StringUtils.slugify (lines 204-231) for a one-character separator with
no regex-special meaning (for such separators the interpolated regexes
behave literally): optional lower-casing, optional stop-word removal on
space-split tokens, removal of `[^\w\s-]`, whitespace runs to separator,
separator-run collapse, and leading/trailing separator strip. -/
def slugify (sep : Char) (lowercase removeStopWords : Bool) (s : String) : String :=
  let r1 := if lowercase then s.data.map Char.toLower else s.data
  let r2 := if removeStopWords then
      joinWithChar ' ' ((splitOnCharL ' ' r1).filter
        (fun w => !(slugStopWords.contains (w.map Char.toLower))))
    else r1
  let r3 := r2.filter (fun c => isWordChar c || jsIsSpace c || c == '-')
  String.mk (stripEnds sep (collapseRuns sep (wsRunsTo sep r3 false) false))

/-- `result.replace(/.+/g, '.')`: what
`result.replace(new RegExp(sep + "+", 'g'), sep)` compiles to when the
caller passes the separator "." — `.` is the regex wildcard, so every
maximal run of non-newline characters becomes a single dot. -/
def replaceDotPlus : List Char → Bool → List Char
  | [], _ => []
  | c :: cs, inRun =>
    if c == '\n' then c :: replaceDotPlus cs false
    else if inRun then replaceDotPlus cs true
    else '.' :: replaceDotPlus cs true

/-- `result.replace(/^.|.$/g, '')` — the strip step compiled from the
separator "." : the wildcard `^.` removes the first character when it is
not a newline, then `.$` removes the last remaining character when it is
not a newline. -/
def stripDotEnds (l : List Char) : List Char :=
  let l1 := match l with
    | [] => []
    | c :: cs => if c == '\n' then c :: cs else cs
  match l1.getLast? with
  | some d => if d == '\n' then l1 else l1.dropLast
  | none => l1

/-- StringUtils.slugify exactly as the source executes it when called with
`separator: "."` and default `lowercase`/`removeStopWords`: the separator
is interpolated unescaped into `new RegExp`, so the two final replace steps
use the wildcard regexes `/.+/g` and `/^.|.$/g`. -/
def slugifyDotSep (s : String) : String :=
  let r1 := s.data.map Char.toLower
  let r3 := r1.filter (fun c => isWordChar c || jsIsSpace c || c == '-')
  String.mk (stripDotEnds (replaceDotPlus (wsRunsTo '.' r3 false) false))

theorem toNat_ofNat_valid (n : Nat) (h : n.isValidChar) : (Char.ofNat n).toNat = n := by
  rw [Char.ofNat, dif_pos h]
  simp [Char.ofNatAux, Char.toNat, UInt32.toNat, BitVec.toNat_ofNatLt]

theorem toUpper_toUpper (c : Char) : c.toUpper.toUpper = c.toUpper := by
  unfold Char.toUpper
  by_cases h : 97 ≤ c.toNat ∧ c.toNat ≤ 122
  · rw [if_pos h]
    have hv : (c.toNat - 32).isValidChar := Or.inl (by omega)
    have ht : (Char.ofNat (c.toNat - 32)).toNat = c.toNat - 32 := toNat_ofNat_valid _ hv
    rw [if_neg]
    omega
  · rw [if_neg h, if_neg h]

/-- C7: for every input, `capitalize` maps the first character through the
upper-case map and returns the remainder untouched (so it differs from the
input in at most the first character and does not lower-case the rest), it
is idempotent, and `capitalize "" = ""`. -/
theorem capitalize_spec (s : String) :
    (capitalize s).data.head? = s.data.head?.map Char.toUpper ∧
    (capitalize s).data.tail = s.data.tail ∧
    capitalize (capitalize s) = capitalize s ∧
    capitalize "" = "" := by
  refine ⟨?_, ?_, ?_, rfl⟩ <;>
    cases h : s.data with
    | nil => simp [capitalize, h]
    | cons c cs => simp [capitalize, h, toUpper_toUpper]

/-- C10: `isPalindrome` is invariant under reversal of the character
sequence of its input, for both values of the `caseSensitive` flag. -/
theorem isPalindrome_reverse_spec (s : String) (caseSensitive : Bool) :
    isPalindrome (strReverse s) caseSensitive = isPalindrome s caseSensitive := by
  unfold isPalindrome strReverse
  cases caseSensitive <;>
  · simp only [if_true, if_false, Bool.false_eq_true, List.filter_reverse,
      List.map_reverse, List.reverse_reverse]
    rw [Bool.eq_iff_iff, beq_iff_eq, beq_iff_eq]
    constructor <;> intro h <;> exact h.symm.trans (by rw [h])

theorem splitOnCharL_ne_nil (sep : Char) (l : List Char) : splitOnCharL sep l ≠ [] := by
  cases l with
  | nil => simp [splitOnCharL]
  | cons c cs =>
    simp only [splitOnCharL]
    rcases h : splitOnCharL sep cs with _ | ⟨p, ps⟩
    · simp
    · dsimp only
      split <;> simp

theorem splitOnCharL_no_sep (sep : Char) (l : List Char) (h : sep ∉ l) :
    splitOnCharL sep l = [l] := by
  induction l with
  | nil => rfl
  | cons c cs ih =>
    have hc : ¬(c == sep) = true := by
      simp only [beq_iff_eq]
      rintro rfl
      exact h (List.mem_cons_self c cs)
    rw [splitOnCharL, ih (fun hm => h (List.mem_cons_of_mem _ hm))]
    simp [hc]

theorem splitOnCharL_append (sep : Char) (a b : List Char) (ha : sep ∉ a) :
    splitOnCharL sep (a ++ sep :: b) = a :: splitOnCharL sep b := by
  induction a with
  | nil =>
    cases hb : splitOnCharL sep b with
    | nil => exact absurd hb (splitOnCharL_ne_nil sep b)
    | cons p ps => simp [splitOnCharL, hb]
  | cons c cs ih =>
    have hc : ¬(c == sep) = true := by
      simp only [beq_iff_eq]
      rintro rfl
      exact ha (List.mem_cons_self c cs)
    have := ih (fun hm => ha (List.mem_cons_of_mem _ hm))
    have this' : splitOnCharL sep (cs.append (sep :: b)) = cs :: splitOnCharL sep b := this
    simp only [List.cons_append, splitOnCharL]
    rw [this']
    simp [hc]

/-- C1 counterexample: for the structurally malformed encoded string
"deadbeef" (no ':' separator) and a successful platform KDF, `verifyHash`
returns `false` instead of raising a Crypto error, contradicting the claim
that it never returns `false` on malformed input. -/
theorem verifyHash_malformed_cex :
    verifyHash pbkdf2Inst "password" "deadbeef" = .ok false := by rfl

/-- C1 (amended): on a structurally malformed encoded string, `verifyHash`
does not raise a Crypto error as long as the platform KDF succeeds (which
it does for arbitrary string salts): with a missing ':' separator it
returns `ok false` because the re-derived digest is compared against an
absent field, and with a well-shaped `salt:rest` whose salt is any
colon-free string (hex or not) it simply compares digests, returning
`ok false` whenever they differ; a Crypto error occurs only if the platform
KDF itself fails, so `false` is not reserved for well-formed encodings. -/
theorem verifyHash_malformed_spec (pbkdf2 : Pbkdf2) (p enc salt rest d d2 : String)
    (henc : ':' ∉ enc.data) (hd : pbkdf2 p enc 10 = some d)
    (hsalt : ':' ∉ salt.data) (hrest : ':' ∉ rest.data)
    (hd2 : pbkdf2 p salt 10 = some d2) (hne : d2 ≠ rest) :
    verifyHash pbkdf2 p enc = .ok false ∧
    verifyHash pbkdf2 p (salt ++ ":" ++ rest) = .ok false := by
  constructor
  · obtain ⟨lenc⟩ := enc
    rw [verifyHash, splitOnCharL_no_sep ':' lenc henc]
    simp only [List.headD_cons, List.drop_succ_cons, List.drop_zero, List.head?_nil,
      Option.map_none']
    rw [hd]
  · obtain ⟨lsalt⟩ := salt
    obtain ⟨lrest⟩ := rest
    rw [verifyHash, String.data_append, String.data_append]
    have hdata : ((String.mk lsalt).data ++ (":" : String).data) ++ lrest =
        lsalt ++ ':' :: lrest := by simp
    rw [hdata, splitOnCharL_append ':' lsalt lrest hsalt,
      splitOnCharL_no_sep ':' lrest hrest]
    simp only [List.headD_cons, List.drop_succ_cons, List.drop_zero, List.head?_cons,
      Option.map_some']
    rw [hd2]
    simp [beq_eq_false_iff_ne.mpr hne]

theorem verifyHash_malformed_spec_witness :
    (':' ∉ ("deadbeef" : String).data) ∧
    verifyHash pbkdf2Inst "pw" "deadbeef" = .ok false ∧
    verifyHash pbkdf2Inst "pw" ("zz" ++ ":" ++ "abc") = .ok false := by
  refine ⟨by decide, ?_, ?_⟩
  · exact (verifyHash_malformed_spec pbkdf2Inst "pw" "deadbeef" "zz" "abc"
      "pw/deadbeef/10" "pw/zz/10" (by decide) rfl (by decide) (by decide) rfl
      (by decide)).1
  · exact (verifyHash_malformed_spec pbkdf2Inst "pw" "deadbeef" "zz" "abc"
      "pw/deadbeef/10" "pw/zz/10" (by decide) rfl (by decide) (by decide) rfl
      (by decide)).2

theorem hexDigit_ne_colon (n : Nat) : hexDigit n ≠ ':' := by
  unfold hexDigit
  rcases Nat.lt_or_ge n 16 with h | h
  · interval_cases n <;> decide
  · rw [List.getD_eq_default _ _ (by simpa using h)]
    decide

theorem toHex_no_colon (bytes : List Nat) : ':' ∉ (toHex bytes).data := by
  unfold toHex
  induction bytes with
  | nil => simp
  | cons b bs ih =>
    simp only [List.foldr_cons]
    intro hmem
    simp only [List.mem_cons] at hmem
    rcases hmem with h | h | h
    · exact hexDigit_ne_colon _ h.symm
    · exact hexDigit_ne_colon _ h.symm
    · exact ih h

/-- C2: `verifyHash` re-derives with a fixed 10 iterations regardless of
the round count used at creation: for any platform KDF whose (colon-free)
digests at the relevant inputs exist, verifying the password against
`hashWithSalt(p, 10)` yields true; verifying a different password `p2`
yields false whenever the KDF digests of `p2` and `p` differ (which the
real collision-free PBKDF2 guarantees); and verifying `p` against
`hashWithSalt(p, r)` for a round count `r` whose digest differs from the
10-iteration digest yields false, because verification ignores `r`. -/
theorem verifyHash_fixed_rounds_spec (pbkdf2 : Pbkdf2) (saltBytes : List Nat)
    (p p2 : String) (r : Nat) (d10 dr e10 : String)
    (h10 : pbkdf2 p (toHex saltBytes) 10 = some d10)
    (hr : pbkdf2 p (toHex saltBytes) r = some dr)
    (h2 : pbkdf2 p2 (toHex saltBytes) 10 = some e10)
    (hx10 : ':' ∉ d10.data) (hxr : ':' ∉ dr.data) :
    (∀ enc, hashWithSalt pbkdf2 saltBytes p 10 = .ok enc →
      verifyHash pbkdf2 p enc = .ok true) ∧
    (∀ enc, hashWithSalt pbkdf2 saltBytes p 10 = .ok enc → e10 ≠ d10 →
      verifyHash pbkdf2 p2 enc = .ok false) ∧
    (∀ enc, hashWithSalt pbkdf2 saltBytes p r = .ok enc → d10 ≠ dr →
      verifyHash pbkdf2 p enc = .ok false) := by
  have hs : ∀ (q : String) (dq : String), pbkdf2 q (toHex saltBytes) 10 = some dq →
      ∀ (dm : String), ':' ∉ dm.data →
      verifyHash pbkdf2 q (toHex saltBytes ++ ":" ++ dm) = .ok (dq == dm) := by
    intro q dq hq dm hdm
    obtain ⟨lm⟩ := dm
    rw [verifyHash, String.data_append, String.data_append]
    have hdata : ((toHex saltBytes).data ++ (":" : String).data) ++ lm =
        (toHex saltBytes).data ++ ':' :: lm := by simp
    rw [hdata, splitOnCharL_append ':' _ lm (toHex_no_colon saltBytes),
      splitOnCharL_no_sep ':' lm hdm]
    simp only [List.headD_cons, List.drop_succ_cons, List.drop_zero, List.head?_cons,
      Option.map_some']
    have : String.mk (toHex saltBytes).data = toHex saltBytes := rfl
    rw [this, hq]
  refine ⟨?_, ?_, ?_⟩
  · intro enc henc
    rw [hashWithSalt, h10] at henc
    obtain rfl : toHex saltBytes ++ ":" ++ d10 = enc := by
      simpa using henc
    rw [hs p d10 h10 d10 hx10]
    simp
  · intro enc henc hne
    rw [hashWithSalt, h10] at henc
    obtain rfl : toHex saltBytes ++ ":" ++ d10 = enc := by
      simpa using henc
    rw [hs p2 e10 h2 d10 hx10]
    simp [beq_eq_false_iff_ne.mpr hne]
  · intro enc henc hne
    rw [hashWithSalt, hr] at henc
    obtain rfl : toHex saltBytes ++ ":" ++ dr = enc := by
      simpa using henc
    rw [hs p d10 h10 dr hxr]
    simp [beq_eq_false_iff_ne.mpr hne]

theorem verifyHash_fixed_rounds_spec_witness :
    (pbkdf2Inst "abc" (toHex [222, 173]) 10 = some "abc/dead/10") ∧
    verifyHash pbkdf2Inst "abc" "dead:abc/dead/10" = .ok true ∧
    verifyHash pbkdf2Inst "abd" "dead:abc/dead/10" = .ok false ∧
    verifyHash pbkdf2Inst "abc" "dead:abc/dead/3" = .ok false := by
  have h := verifyHash_fixed_rounds_spec pbkdf2Inst [222, 173] "abc" "abd" 3
    "abc/dead/10" "abc/dead/3" "abd/dead/10" (by decide) (by decide) (by decide)
    (by decide) (by decide)
  refine ⟨by decide, ?_, ?_, ?_⟩
  · exact h.1 "dead:abc/dead/10" rfl
  · exact h.2.1 "dead:abc/dead/10" rfl (by decide)
  · exact h.2.2 "dead:abc/dead/3" rfl (by decide)

/-- C4: the claim that `slugify` never fails and always uses the separator
verbatim is contradicted by the code: the separator is interpolated
unescaped into `new RegExp`, so for the separator "." the collapse and
strip steps run with the wildcard regexes `/.+/g` and `/^.|.$/g` and
`slugify("Hello World", separator ".")` evaluates to `""` instead of the
verbatim-separator result "hello.world" (and a separator like "(" even
raises an uncaught SyntaxError); for regex-literal separators such as "_"
and the default "-" the code does behave verbatim, as the claim's two
concrete examples show. -/
theorem slugify_separator_bug :
    slugifyDotSep "Hello World" = "" ∧
    slugify '.' true false "Hello World" = "hello.world" ∧
    slugify '_' true false "Hello World" = "hello_world" ∧
    slugify '-' true false "Hello & World!" = "hello-world" :=
  ⟨rfl, rfl, rfl, rfl⟩

/-- C6: for every length `n ≥ 1`, configuration, and platform byte source
that delivers `n` random bytes, `randomString` returns a string of length
exactly `n` whose characters all belong to the alphabet assembled (in the
order uppercase, lowercase, numbers, symbols) from the enabled classes —
provided that alphabet is non-empty; it fails with a Validation error when
the length is 0 (`length < 1`), and with a Validation error when all four
class flags resolve to false so the alphabet is empty. -/
theorem randomString_spec (randomBytes : Nat → Option (List Nat)) (n : Int)
    (options : RandomStringOptions) (bs : List Nat)
    (h1 : 1 ≤ n) (h2 : randomBytes n.toNat = some bs) (h3 : bs.length = n.toNat) :
    (rsAlphabet options ≠ "" →
      ∃ s, randomString randomBytes n options = .ok s ∧
        s.length = n.toNat ∧ ∀ c ∈ s.data, c ∈ (rsAlphabet options).data) ∧
    randomString randomBytes 0 options = .error ⟨.validation, "Length must be positive"⟩ ∧
    (options.uppercase = false → options.lowercase = false → options.numbers = false →
      options.symbols = false →
      randomString randomBytes n options =
        .error ⟨.validation, "At least one character type must be selected"⟩) := by
  refine ⟨?_, rfl, ?_⟩
  · intro hne
    have hlen : (rsAlphabet options).length ≠ 0 := by
      intro h0
      exact hne (String.ext (List.length_eq_zero.mp h0))
    rw [randomString, if_neg (by omega), if_neg hlen, h2]
    refine ⟨_, rfl, ?_, ?_⟩
    · show (bs.map _).length = n.toNat
      rw [List.length_map]
      exact h3
    · intro c hc
      simp only [String.mk] at hc
      obtain ⟨byte, -, rfl⟩ := List.mem_map.mp hc
      have hpos : 0 < (rsAlphabet options).data.length := by
        have : (rsAlphabet options).length = (rsAlphabet options).data.length := rfl
        omega
      have hidx : byte % (rsAlphabet options).length < (rsAlphabet options).data.length := by
        have : (rsAlphabet options).length = (rsAlphabet options).data.length := rfl
        exact this ▸ Nat.mod_lt _ (by omega)
      rw [List.getD_eq_getElem _ _ hidx]
      exact List.getElem_mem hidx
  · intro hu hl hn hsym
    have : rsAlphabet options = "" := by
      rw [rsAlphabet, hu, hl, hn, hsym]
      rfl
    rw [randomString, if_neg (by omega), this]
    rfl

theorem randomString_spec_witness :
    (1 : Int) ≤ 5 ∧
    ((rsAlphabet {} ≠ "" →
      ∃ s, randomString (fun k => some (List.replicate k 65)) 5 {} = .ok s ∧
        s.length = (5 : Int).toNat ∧ ∀ c ∈ s.data, c ∈ (rsAlphabet {}).data) ∧
    randomString (fun k => some (List.replicate k 65)) 0 {} =
      .error ⟨.validation, "Length must be positive"⟩ ∧
    (({} : RandomStringOptions).uppercase = false →
      ({} : RandomStringOptions).lowercase = false →
      ({} : RandomStringOptions).numbers = false →
      ({} : RandomStringOptions).symbols = false →
      randomString (fun k => some (List.replicate k 65)) 5 {} =
        .error ⟨.validation, "At least one character type must be selected"⟩)) :=
  ⟨by decide,
   randomString_spec (fun k => some (List.replicate k 65)) 5 {} (List.replicate 5 65)
     (by decide) rfl rfl⟩

theorem isB64Char_b64Char (v : Nat) : isB64Char (b64Char v) = true := by
  rcases Nat.lt_or_ge v 64 with h | h
  · unfold b64Char
    interval_cases v <;> decide
  · unfold b64Char
    rw [List.getD_eq_default _ _ (by simpa [b64Alphabet] using h)]
    decide

theorem b64Char_ne_pad (v : Nat) : (b64Char v == '=') = false := by
  rcases Nat.lt_or_ge v 64 with h | h
  · unfold b64Char
    interval_cases v <;> decide
  · unfold b64Char
    rw [List.getD_eq_default _ _ (by simpa [b64Alphabet] using h)]
    decide

theorem b64Val_b64Char (v : Nat) (h : v < 64) : b64Val (b64Char v) = v := by
  unfold b64Val b64Char
  interval_cases v <;> decide

theorem b64FormatOk_cons (c : Char) (h : isB64Char c = true) (cs : List Char) :
    b64FormatOk (c :: cs) = b64FormatOk cs := by
  unfold b64FormatOk
  rw [List.takeWhile_cons, if_pos h]
  simp [List.drop_succ_cons]

theorem b64FormatOk_encode (bytes : List Nat) :
    b64FormatOk (b64EncodeBytes bytes) = true := by
  induction bytes using b64EncodeBytes.induct with
  | case1 => decide
  | case2 b1 =>
    rw [b64EncodeBytes, b64FormatOk_cons _ (isB64Char_b64Char _),
      b64FormatOk_cons _ (isB64Char_b64Char _)]
    decide
  | case3 b1 b2 =>
    rw [b64EncodeBytes, b64FormatOk_cons _ (isB64Char_b64Char _),
      b64FormatOk_cons _ (isB64Char_b64Char _), b64FormatOk_cons _ (isB64Char_b64Char _)]
    decide
  | case4 b1 b2 b3 rest ih =>
    rw [b64EncodeBytes, b64FormatOk_cons _ (isB64Char_b64Char _),
      b64FormatOk_cons _ (isB64Char_b64Char _), b64FormatOk_cons _ (isB64Char_b64Char _),
      b64FormatOk_cons _ (isB64Char_b64Char _)]
    exact ih

theorem b64DecodeChars_encode (bytes : List Nat) (h : ∀ b ∈ bytes, b < 256) :
    b64DecodeChars (b64EncodeBytes bytes) = bytes := by
  induction bytes using b64EncodeBytes.induct with
  | case1 => rfl
  | case2 b1 =>
    have hb1 : b1 < 256 := h b1 (by simp)
    rw [b64EncodeBytes, b64DecodeChars]
    rw [if_pos (by decide)]
    rw [b64Val_b64Char _ (by omega), b64Val_b64Char _ (by omega)]
    congr 1
    omega
  | case3 b1 b2 =>
    have hb1 : b1 < 256 := h b1 (by simp)
    have hb2 : b2 < 256 := h b2 (by simp)
    rw [b64EncodeBytes, b64DecodeChars]
    rw [if_neg (by rw [b64Char_ne_pad]; simp), if_pos (by decide)]
    rw [b64Val_b64Char _ (by omega), b64Val_b64Char _ (by omega),
      b64Val_b64Char _ (by omega)]
    congr 1
    · omega
    · congr 1
      omega
  | case4 b1 b2 b3 rest ih =>
    have hb1 : b1 < 256 := h b1 (by simp)
    have hb2 : b2 < 256 := h b2 (by simp)
    have hb3 : b3 < 256 := h b3 (by simp)
    have ih' := ih (fun b hb => h b (by simp [hb]))
    rw [b64EncodeBytes, b64DecodeChars]
    rw [if_neg (by rw [b64Char_ne_pad]; simp), if_neg (by rw [b64Char_ne_pad]; simp)]
    rw [b64Val_b64Char _ (by omega), b64Val_b64Char _ (by omega),
      b64Val_b64Char _ (by omega), b64Val_b64Char _ (by omega), ih']
    congr 1
    · omega
    · congr 1
      · omega
      · congr 1
        omega

/-- C5: decoding the encoding is the identity (stated on the UTF-8 byte
sequence of the text, the platform `Buffer` codec being the identity at the
byte level), and the syntactically invalid input "not valid!!" fails with a
StringUtil error carrying the message "Invalid base64 string" — not a
Validation error. -/
theorem base64_roundtrip_spec (bytes : List Nat) (h : ∀ b ∈ bytes, b < 256) :
    base64Decode (base64Encode bytes) = .ok bytes ∧
    base64Decode "not valid!!" = .error ⟨.stringUtil, "Invalid base64 string"⟩ ∧
    ErrorKind.stringUtil ≠ ErrorKind.validation := by
  refine ⟨?_, by rfl, by decide⟩
  unfold base64Decode
  have hdata : (base64Encode bytes).data = b64EncodeBytes bytes := rfl
  rw [hdata, b64FormatOk_encode bytes, if_pos rfl, b64DecodeChars_encode bytes h]

theorem base64_roundtrip_spec_witness :
    (∀ b ∈ [72, 105], b < 256) ∧
    (base64Decode (base64Encode [72, 105]) = .ok [72, 105] ∧
     base64Decode "not valid!!" = .error ⟨.stringUtil, "Invalid base64 string"⟩ ∧
     ErrorKind.stringUtil ≠ ErrorKind.validation) :=
  ⟨by decide, base64_roundtrip_spec [72, 105] (by decide)⟩

theorem b64EncodeBytes_length_mod (bytes : List Nat) :
    (b64EncodeBytes bytes).length % 4 = 0 := by
  induction bytes using b64EncodeBytes.induct with
  | case1 => rfl
  | case2 b1 =>
    rw [b64EncodeBytes]
    simp
  | case3 b1 b2 =>
    rw [b64EncodeBytes]
    simp
  | case4 b1 b2 b3 rest ih =>
    rw [b64EncodeBytes]
    simp only [List.length_cons]
    omega

theorem takeWhile_all_pad (pad : List Char) (hp : pad.all (fun c => c == '=') = true) :
    pad.takeWhile isB64Char = [] := by
  cases pad with
  | nil => rfl
  | cons c cs =>
    have : (c == '=') = true := by
      have := List.all_eq_true.mp hp c (by simp)
      simpa using this
    rw [List.takeWhile_cons, if_neg]
    rw [beq_iff_eq] at this
    subst this
    decide

theorem b64FormatOk_shape (body pad : List Char) (hb : body.all isB64Char = true)
    (hp : pad.all (fun c => c == '=') = true) (hl : pad.length ≤ 2) :
    b64FormatOk (body ++ pad) = true := by
  induction body with
  | nil =>
    unfold b64FormatOk
    rw [List.nil_append, takeWhile_all_pad pad hp]
    simpa [hl] using hp
  | cons c cs ih =>
    have hc : isB64Char c = true := List.all_eq_true.mp hb c (by simp)
    have hcs : cs.all isB64Char = true :=
      List.all_eq_true.mpr (fun x hx => List.all_eq_true.mp hb x (by simp [hx]))
    rw [List.cons_append, b64FormatOk_cons c hc, ih hcs]

/-- C9: the syntactic check of `base64Decode` does not require a length
divisible by 4: any string made of alphabet characters followed by at most
two `=` decodes without an error; in particular the 3-character input
"abc" (which no `base64Encode` output equals, since encode outputs have
length divisible by 4) decodes successfully, to the bytes [105, 183]. -/
theorem base64Decode_lenient_spec (s : String) (body pad : List Char)
    (hs : s.data = body ++ pad) (hb : body.all isB64Char = true)
    (hp : pad.all (fun c => c == '=') = true) (hl : pad.length ≤ 2) :
    (∃ out, base64Decode s = .ok out) ∧
    base64Decode "abc" = .ok [105, 183] ∧
    (∀ bytes, base64Encode bytes ≠ "abc") := by
  refine ⟨?_, by rfl, ?_⟩
  · refine ⟨b64DecodeChars s.data, ?_⟩
    unfold base64Decode
    rw [hs, b64FormatOk_shape body pad hb hp hl, if_pos rfl, ← hs]
  · intro bytes heq
    have hdata : b64EncodeBytes bytes = ("abc" : String).data := congrArg String.data heq
    have hlen := b64EncodeBytes_length_mod bytes
    rw [hdata] at hlen
    simp at hlen

theorem base64Decode_lenient_spec_witness :
    (("abc" : String).data = ['a', 'b', 'c'] ++ [] ∧ (['a', 'b', 'c'].all isB64Char = true)) ∧
    ((∃ out, base64Decode "abc" = .ok out) ∧
     base64Decode "abc" = .ok [105, 183] ∧
     (∀ bytes, base64Encode bytes ≠ "abc")) :=
  ⟨⟨by decide, by decide⟩,
   base64Decode_lenient_spec "abc" ['a', 'b', 'c'] [] (by decide) (by decide)
     (by decide) (by decide)⟩

theorem noAdjSpace_tail (c : Char) (cs : List Char) (h : noAdjSpace (c :: cs) = true) :
    noAdjSpace cs = true := by
  cases cs with
  | nil => rfl
  | cons d ds =>
    rw [noAdjSpace] at h
    exact (Bool.and_eq_true_iff.mp h).2

theorem collapseWs_head_true (cs : List Char) (c : Char)
    (h : (collapseWs cs true).head? = some c) : jsIsSpace c = false := by
  induction cs with
  | nil => simp [collapseWs] at h
  | cons d ds ih =>
    by_cases hd : jsIsSpace d = true
    · rw [collapseWs, if_pos hd, if_pos rfl] at h
      exact ih h
    · rw [collapseWs, if_neg hd] at h
      rw [List.head?_cons, Option.some_inj] at h
      subst h
      simpa using hd

theorem noAdjSpace_collapseWs (cs : List Char) (b : Bool) :
    noAdjSpace (collapseWs cs b) = true := by
  induction cs generalizing b with
  | nil => rfl
  | cons d ds ih =>
    by_cases hd : jsIsSpace d = true
    · cases b with
      | true =>
        rw [collapseWs, if_pos hd, if_pos rfl]
        exact ih true
      | false =>
        rw [collapseWs, if_pos hd, if_neg (by simp)]
        cases hr : collapseWs ds true with
        | nil => rfl
        | cons e r =>
          rw [noAdjSpace, Bool.and_eq_true_iff]
          constructor
          · have he : jsIsSpace e = false :=
              collapseWs_head_true ds e (by rw [hr]; rfl)
            simp [he]
          · rw [← hr]
            exact ih true
    · rw [collapseWs, if_neg hd]
      cases hr : collapseWs ds false with
      | nil => rfl
      | cons e r =>
        rw [noAdjSpace, Bool.and_eq_true_iff]
        constructor
        · simp at hd
          simp [hd]
        · rw [← hr]
          exact ih false

theorem normedSp_collapseWs (cs : List Char) (b : Bool) :
    normedSp (collapseWs cs b) = true := by
  induction cs generalizing b with
  | nil => rfl
  | cons d ds ih =>
    by_cases hd : jsIsSpace d = true
    · cases b with
      | true =>
        rw [collapseWs, if_pos hd, if_pos rfl]
        exact ih true
      | false =>
        rw [collapseWs, if_pos hd, if_neg (by simp)]
        rw [normedSp, List.all_cons]
        refine Bool.and_eq_true_iff.mpr ⟨by decide, ih true⟩
    · rw [collapseWs, if_neg hd]
      rw [normedSp, List.all_cons]
      refine Bool.and_eq_true_iff.mpr ⟨by simp_all, ih false⟩

theorem collapseWs_fix (l : List Char) (hn : normedSp l = true) (ha : noAdjSpace l = true) :
    collapseWs l false = l ∧ (headNotSpace l = true → collapseWs l true = l) := by
  induction l with
  | nil => exact ⟨rfl, fun _ => rfl⟩
  | cons c cs ih =>
    have hn' : normedSp cs = true := by
      rw [normedSp, List.all_cons, Bool.and_eq_true_iff] at hn
      exact hn.2
    have hc : !jsIsSpace c || c == ' ' := by
      rw [normedSp, List.all_cons, Bool.and_eq_true_iff] at hn
      exact hn.1
    have ha' : noAdjSpace cs = true := noAdjSpace_tail c cs ha
    obtain ⟨ih1, ih2⟩ := ih hn' ha'
    by_cases hsp : jsIsSpace c = true
    · have hceq : c = ' ' := by
        rw [hsp] at hc
        simpa [beq_iff_eq] using hc
      have hhead : headNotSpace cs = true := by
        cases cs with
        | nil => rfl
        | cons d ds =>
          rw [noAdjSpace, Bool.and_eq_true_iff] at ha
          have := ha.1
          rw [hsp] at this
          simp only [Bool.true_and, Bool.not_eq_true'] at this
          rw [headNotSpace]
          simp [this]
      constructor
      · rw [collapseWs, if_pos hsp, if_neg (by simp), ih2 hhead, hceq]
      · intro habs
        rw [headNotSpace] at habs
        simp only [List.head?_cons] at habs
        rw [hsp] at habs
        simp at habs
    · constructor
      · rw [collapseWs, if_neg hsp, ih1]
      · intro _
        rw [collapseWs, if_neg hsp, ih1]

theorem dropWhile_head_not (p : Char → Bool) (l : List Char) (c : Char)
    (h : (l.dropWhile p).head? = some c) : p c = false := by
  induction l with
  | nil => simp [List.dropWhile] at h
  | cons d ds ih =>
    by_cases hd : p d = true
    · rw [List.dropWhile_cons, if_pos hd] at h
      exact ih h
    · rw [List.dropWhile_cons, if_neg hd] at h
      rw [List.head?_cons, Option.some_inj] at h
      subst h
      simpa using hd

theorem dropTrailWs_getLast (l : List Char) (c : Char)
    (h : (dropTrailWs l).getLast? = some c) : jsIsSpace c = false := by
  induction l with
  | nil => simp [dropTrailWs] at h
  | cons d ds ih =>
    rw [dropTrailWs] at h
    cases hr : dropTrailWs ds with
    | nil =>
      rw [hr] at h
      by_cases hd : jsIsSpace d = true
      · rw [if_pos hd] at h
        simp at h
      · rw [if_neg hd] at h
        simp only [List.getLast?_singleton, Option.some_inj] at h
        subst h
        simpa using hd
    | cons e r =>
      rw [hr] at h
      rw [List.getLast?_cons_cons] at h
      exact ih (by rw [hr]; exact h)

theorem dropTrailWs_head (l : List Char) (h : dropTrailWs l ≠ []) :
    (dropTrailWs l).head? = l.head? := by
  cases l with
  | nil => rfl
  | cons d ds =>
    rw [dropTrailWs]
    cases hr : dropTrailWs ds with
    | nil =>
      by_cases hd : jsIsSpace d = true
      · rw [dropTrailWs, hr, if_pos hd] at h
        exact absurd rfl h
      · rw [if_neg hd]
        rfl
    | cons e r => rfl

theorem dropTrailWs_front (l : List Char) : dropTrailWs l <+: l := by
  induction l with
  | nil => exact List.nil_prefix
  | cons d ds ih =>
    rw [dropTrailWs]
    cases hr : dropTrailWs ds with
    | nil =>
      by_cases hd : jsIsSpace d = true
      · rw [if_pos hd]
        exact List.nil_prefix
      · rw [if_neg hd]
        exact ⟨ds, rfl⟩
    | cons e r =>
      have ih' : e :: r <+: ds := hr ▸ ih
      obtain ⟨t, htt⟩ := ih'
      exact ⟨t, by rw [List.cons_append, htt]⟩

theorem dropTrailWs_noAdj (l : List Char) (h : noAdjSpace l = true) :
    noAdjSpace (dropTrailWs l) = true := by
  induction l with
  | nil => rfl
  | cons d ds ih =>
    rw [dropTrailWs]
    cases hr : dropTrailWs ds with
    | nil =>
      by_cases hd : jsIsSpace d = true
      · rw [if_pos hd]
        rfl
      · rw [if_neg hd]
        rfl
    | cons e r =>
      have hds : noAdjSpace ds = true := noAdjSpace_tail d ds h
      have ihr : noAdjSpace (e :: r) = true := hr ▸ ih hds
      have hhead : ds.head? = some e := by
        have := dropTrailWs_head ds (by rw [hr]; simp)
        rw [hr] at this
        exact this.symm
      obtain ⟨ds', rfl⟩ : ∃ t, ds = e :: t := by
        cases ds with
        | nil => simp at hhead
        | cons x xs =>
          rw [List.head?_cons, Option.some_inj] at hhead
          exact ⟨xs, by rw [hhead]⟩
      rw [noAdjSpace, Bool.and_eq_true_iff]
      refine ⟨?_, ihr⟩
      rw [noAdjSpace, Bool.and_eq_true_iff] at h
      exact h.1

theorem dropTrailWs_fix (l : List Char) (h : lastNotSpace l = true) :
    dropTrailWs l = l := by
  induction l with
  | nil => rfl
  | cons d ds ih =>
    cases hds : ds with
    | nil =>
      have hd : jsIsSpace d = false := by
        rw [lastNotSpace, hds] at h
        simpa using h
      rw [dropTrailWs, dropTrailWs, if_neg (by simp [hd])]
    | cons e r =>
      have hlast : lastNotSpace (e :: r) = true := by
        rw [lastNotSpace] at h ⊢
        rw [hds, List.getLast?_cons_cons] at h
        exact h
      have ih' := ih
      rw [hds] at ih'
      rw [dropTrailWs, ih' hlast]

theorem normedSp_sublist (l' l : List Char) (hs : l'.Sublist l) (h : normedSp l = true) :
    normedSp l' = true := by
  rw [normedSp, List.all_eq_true] at h ⊢
  exact fun x hx => h x (hs.subset hx)

theorem noAdjSpace_suffix (l' l : List Char) (hs : l' <:+ l) (h : noAdjSpace l = true) :
    noAdjSpace l' = true := by
  obtain ⟨pre, rfl⟩ := hs
  induction pre with
  | nil => exact h
  | cons p ps ih =>
    exact ih (noAdjSpace_tail p (ps ++ l') h)

/-- C8: `trimExtraSpaces` is idempotent, its result never contains two
adjacent whitespace characters, and its result neither begins nor ends
with whitespace. -/
theorem trimExtraSpaces_spec (s : String) :
    trimExtraSpaces (trimExtraSpaces s) = trimExtraSpaces s ∧
    noAdjSpace (trimExtraSpaces s).data = true ∧
    headNotSpace (trimExtraSpaces s).data = true ∧
    lastNotSpace (trimExtraSpaces s).data = true := by
  set m := (collapseWs s.data false).dropWhile jsIsSpace with hm
  set t := dropTrailWs m with ht
  have hdata : (trimExtraSpaces s).data = t := rfl
  have hnoadj_m : noAdjSpace m = true :=
    noAdjSpace_suffix m _ (List.dropWhile_suffix jsIsSpace)
      (noAdjSpace_collapseWs s.data false)
  have hnoadj : noAdjSpace t = true := dropTrailWs_noAdj m hnoadj_m
  have hnormed : normedSp t = true :=
    normedSp_sublist t _ ((dropTrailWs_front m).sublist.trans
      (List.dropWhile_sublist jsIsSpace))
      (normedSp_collapseWs s.data false)
  have hhead : headNotSpace t = true := by
    rw [headNotSpace]
    cases hh : t.head? with
    | none => rfl
    | some c =>
      have hne : t ≠ [] := by
        intro e
        rw [e] at hh
        simp at hh
      have := dropTrailWs_head m hne
      rw [← ht] at this
      rw [this] at hh
      have := dropWhile_head_not jsIsSpace (collapseWs s.data false) c hh
      simp [this]
  have hlast : lastNotSpace t = true := by
    rw [lastNotSpace]
    cases hh : t.getLast? with
    | none => rfl
    | some c =>
      have := dropTrailWs_getLast m c (ht ▸ hh)
      simp [this]
  refine ⟨?_, hdata ▸ hnoadj, hdata ▸ hhead, hdata ▸ hlast⟩
  show String.mk (dropTrailWs ((collapseWs (trimExtraSpaces s).data false).dropWhile jsIsSpace))
      = trimExtraSpaces s
  rw [hdata]
  rw [(collapseWs_fix t hnormed hnoadj).1]
  have hdw : t.dropWhile jsIsSpace = t := by
    cases hc : t with
    | nil => rfl
    | cons c cs =>
      rw [headNotSpace, hc, List.head?_cons] at hhead
      rw [List.dropWhile_cons, if_neg (by simpa using hhead)]
  rw [hdw, dropTrailWs_fix t hlast]
  exact String.ext hdata.symm ▸ rfl

theorem levFun_nil_left (v : List Char) : levFun [] v = v.length := by
  rw [levFun.eq_def]

theorem levFun_nil_right (u : List Char) : levFun u [] = u.length := by
  cases u with
  | nil => rw [levFun.eq_def]
  | cons x xs => rw [levFun.eq_def]

theorem levFun_cons_cons (x y : Char) (u v : List Char) :
    levFun (x :: u) (y :: v) =
      min (levFun u (y :: v) + 1)
        (min (levFun (x :: u) v + 1) (levFun u v + if x = y then 0 else 1)) := by
  rw [levFun.eq_def]

theorem levFun_symm (u : List Char) : ∀ v, levFun u v = levFun v u := by
  induction u with
  | nil =>
    intro v
    rw [levFun_nil_right, levFun_nil_left]
  | cons x xs ih =>
    intro v
    induction v with
    | nil => rw [levFun_nil_right, levFun_nil_left]
    | cons y ys ihv =>
      rw [levFun_cons_cons, levFun_cons_cons]
      rw [ih (y :: ys), ihv, ih ys]
      have hc : (if x = y then 0 else 1) = (if y = x then 0 else 1) := by
        by_cases hxy : x = y
        · rw [if_pos hxy, if_pos hxy.symm]
        · rw [if_neg hxy, if_neg (fun e => hxy e.symm)]
      rw [hc]
      exact min_left_comm _ _ _

theorem levFun_le_max (u : List Char) : ∀ v, levFun u v ≤ max u.length v.length := by
  induction u with
  | nil =>
    intro v
    rw [levFun_nil_left]
    exact le_max_right _ _
  | cons x xs ih =>
    intro v
    cases v with
    | nil =>
      rw [levFun_nil_right]
      exact le_max_left _ _
    | cons y ys =>
      rw [levFun_cons_cons]
      have h3 : levFun xs ys + (if x = y then 0 else 1) ≤ max xs.length ys.length + 1 := by
        have := ih ys
        have hcost : (if x = y then 0 else 1) ≤ 1 := by
          by_cases hxy : x = y <;> simp [hxy]
        omega
      calc min (levFun xs (y :: ys) + 1)
            (min (levFun (x :: xs) ys + 1) (levFun xs ys + if x = y then 0 else 1))
          ≤ levFun xs ys + (if x = y then 0 else 1) :=
            le_trans (min_le_right _ _) (min_le_right _ _)
        _ ≤ max xs.length ys.length + 1 := h3
        _ = max (xs.length + 1) (ys.length + 1) := (Nat.succ_max_succ _ _).symm
        _ = max (x :: xs).length (y :: ys).length := by simp

theorem levCells_spec (x : Char) (ru : List Char) :
    ∀ (bs rv : List Char),
      levCells x bs (levFun ru rv :: levSpecCells ru rv bs) (levFun (x :: ru) rv) =
        levSpecCells (x :: ru) rv bs := by
  intro bs
  induction bs with
  | nil => intro rv; rfl
  | cons y ys ih =>
    intro rv
    rw [levSpecCells, levCells]
    have hcell : min (levFun ru (y :: rv) + 1)
        (min (levFun (x :: ru) rv + 1) (levFun ru rv + if x = y then 0 else 1)) =
        levFun (x :: ru) (y :: rv) := (levFun_cons_cons x y ru rv).symm
    simp only [List.headD_cons]
    rw [hcell, ih (y :: rv)]
    rfl

theorem levRows_spec (bs : List Char) :
    ∀ (as ru : List Char),
      levRows bs as (levFun ru [] :: levSpecCells ru [] bs) (ru.length + 1) =
        levFun (as.reverse ++ ru) [] :: levSpecCells (as.reverse ++ ru) [] bs := by
  intro as
  induction as with
  | nil =>
    intro ru
    simp [levRows]
  | cons x xs ih =>
    intro ru
    rw [levRows]
    have h1 : ru.length + 1 = levFun (x :: ru) [] := by
      rw [levFun_nil_right]
      rfl
    rw [h1, levCells_spec x ru bs []]
    have h2 : levFun (x :: ru) [] + 1 = (x :: ru).length + 1 := by
      rw [levFun_nil_right]
    rw [h2, ih (x :: ru)]
    congr 1 <;> simp

theorem levSpecCells_range (bs : List Char) :
    ∀ rv : List Char, levSpecCells [] rv bs = List.range' (rv.length + 1) bs.length := by
  induction bs with
  | nil => intro rv; rfl
  | cons y ys ih =>
    intro rv
    simp only [List.length_cons]
    rw [levSpecCells, List.range'_succ, ih (y :: rv)]
    congr 1
    rw [levFun_nil_left]
    rfl

theorem range_eq_levRow0 (bs : List Char) :
    List.range (bs.length + 1) = levFun [] [] :: levSpecCells [] [] bs := by
  rw [List.range_eq_range', List.range'_succ, levSpecCells_range bs []]
  rw [levFun_nil_left]
  rfl

theorem levSpec_last (ru : List Char) :
    ∀ (bs rv : List Char) (d : Nat),
      (levFun ru rv :: levSpecCells ru rv bs).getLastD d = levFun ru (bs.reverse ++ rv) := by
  intro bs
  induction bs with
  | nil =>
    intro rv d
    rfl
  | cons y ys ih =>
    intro rv d
    rw [levSpecCells, List.getLastD_cons, ih (y :: rv) (levFun ru rv)]
    congr 1
    simp

theorem levenshtein_eq_levFun (a b : String) :
    levenshteinDistance a b = levFun a.data.reverse b.data.reverse := by
  unfold levenshteinDistance
  rw [range_eq_levRow0 b.data]
  have h0 : (1 : Nat) = ([] : List Char).length + 1 := rfl
  rw [h0, levRows_spec b.data a.data [], List.append_nil,
    levSpec_last a.data.reverse b.data [] 0, List.append_nil]

theorem levenshtein_symm (a b : String) :
    levenshteinDistance a b = levenshteinDistance b a := by
  rw [levenshtein_eq_levFun, levenshtein_eq_levFun, levFun_symm]

theorem levenshtein_le_max (a b : String) :
    levenshteinDistance a b ≤ max a.length b.length := by
  rw [levenshtein_eq_levFun]
  have h := levFun_le_max a.data.reverse b.data.reverse
  rw [List.length_reverse, List.length_reverse] at h
  exact h

/-- C3 counterexample: on two empty strings the source divides 0 by 0, so
`similarity("", "")` is NaN (modelled as `none`), not the claimed 100. -/
theorem similarity_empty_cex : ¬ (similarity "" "" = some 100) := by
  have : similarity "" "" = none := rfl
  rw [this]
  simp

theorem similarity_val (a b : String) (hm : max a.length b.length ≠ 0) :
    similarity a b =
      some ((round ((1 - (levenshteinDistance a b : ℚ) /
        ((max a.length b.length : ℕ) : ℚ)) * 100) : ℤ) : ℚ) := by
  unfold similarity
  rw [if_neg hm]
  congr 1
  unfold toFixed2
  rw [div_mul_cancel₀ _ (by norm_num : (100 : ℚ) ≠ 0)]

/-- C3 (amended): for every pair of strings that are not both empty,
`similarity(a, b)` is an integer in [0, 100] equal to
`round((1 - levenshteinDistance(a,b) / max(len a, len b)) * 100)` (the
2-decimal rounding of the ratio followed by the multiplication by 100
produces exactly this integer); `similarity` is symmetric on all inputs;
and `similarity("hello", "hallo") = 80`.  The claimed convention
`similarity("", "") = 100` does not hold: the code divides 0 by 0 and
yields NaN (`none`). -/
theorem similarity_spec (a b : String) (h : a ≠ "" ∨ b ≠ "") :
    (∃ v : ℤ, similarity a b = some (v : ℚ) ∧ 0 ≤ v ∧ v ≤ 100 ∧
      v = round ((1 - (levenshteinDistance a b : ℚ) /
        ((max a.length b.length : ℕ) : ℚ)) * 100)) ∧
    (∀ x y : String, similarity x y = similarity y x) ∧
    similarity "hello" "hallo" = some 80 := by
  have hm : max a.length b.length ≠ 0 := by
    intro h0
    obtain ⟨h1, h2⟩ := Nat.max_eq_zero_iff.mp h0
    rcases h with h | h
    · exact h (String.ext (List.length_eq_zero.mp h1))
    · exact h (String.ext (List.length_eq_zero.mp h2))
  refine ⟨?_, ?_, ?_⟩
  · set d := levenshteinDistance a b with hd
    set m := max a.length b.length with hmm
    have hdm : d ≤ m := levenshtein_le_max a b
    have hmpos : (0 : ℚ) < (m : ℚ) := by
      have : 0 < m := Nat.pos_of_ne_zero hm
      exact_mod_cast this
    set x : ℚ := (1 - (d : ℚ) / (m : ℚ)) * 100 with hx
    have hx0 : 0 ≤ x := by
      have hr : (d : ℚ) / (m : ℚ) ≤ 1 := by
        rw [div_le_one hmpos]
        exact_mod_cast hdm
      rw [hx]
      nlinarith
    have hx100 : x ≤ 100 := by
      have hr : 0 ≤ (d : ℚ) / (m : ℚ) := by
        apply div_nonneg
        · exact_mod_cast Nat.zero_le d
        · exact le_of_lt hmpos
      rw [hx]
      nlinarith
    refine ⟨round x, similarity_val a b hm, ?_, ?_, rfl⟩
    · have h1 := sub_half_lt_round x
      have h2 : ((-1 : ℤ) : ℚ) < ((round x : ℤ) : ℚ) := by
        push_cast
        linarith
      have h3 : (-1 : ℤ) < round x := by exact_mod_cast h2
      omega
    · have h1 := round_le_add_half x
      have h2 : ((round x : ℤ) : ℚ) < ((101 : ℤ) : ℚ) := by
        push_cast
        linarith
      have h3 : round x < (101 : ℤ) := by exact_mod_cast h2
      omega
  · intro x y
    unfold similarity
    rw [levenshtein_symm x y, Nat.max_comm x.length y.length]
  · have hlev : levenshteinDistance "hello" "hallo" = 1 := by decide
    have hm5 : max ("hello" : String).length ("hallo" : String).length = 5 := by decide
    rw [similarity_val _ _ (by decide), hlev, hm5]
    norm_num [round_eq]

theorem similarity_spec_witness :
    (("hello" : String) ≠ "" ∨ ("hallo" : String) ≠ "") ∧
    ((∃ v : ℤ, similarity "hello" "hallo" = some (v : ℚ) ∧ 0 ≤ v ∧ v ≤ 100 ∧
      v = round ((1 - (levenshteinDistance "hello" "hallo" : ℚ) /
        ((max ("hello" : String).length ("hallo" : String).length : ℕ) : ℚ)) * 100)) ∧
    (∀ x y : String, similarity x y = similarity y x) ∧
    similarity "hello" "hallo" = some 80) :=
  ⟨Or.inl (by decide), similarity_spec "hello" "hallo" (Or.inl (by decide))⟩

end StringUtils
